import Mathlib

/-
Verification of the EgomModel (EGM) codec of the interstellar-armada Blender
scripts (src/blender/io_export_egm.py, io_export_egm_blender_4.py,
io_import_egm.py). Floating point values are modelled as rationals, Python
ints as integers; Python lists become Lean lists.
-/

set_option maxRecDepth 4000

namespace EGM

/-! ## Generic helpers -/

/-- Update the element of a list at one position, leaving the rest unchanged
(mirrors a Python element assignment). -/
def updAt {α : Type} : List α → ℕ → (α → α) → List α
  | [], _, _ => []
  | a :: as, 0, f => f a :: as
  | a :: as, n + 1, f => a :: updAt as n f

/-- Minimum of a nonempty integer list, as Python min (0 for the empty list,
which never occurs in use). -/
def listMinZ : List ℤ → ℤ
  | [] => 0
  | a :: as => as.foldl min a

/-- First position of a value in an integer list (mirrors Python list.index,
returning the length when absent). -/
def idxOfZ (a : ℤ) : List ℤ → ℕ
  | [] => 0
  | b :: bs => if b = a then 0 else idxOfZ a bs + 1

/-! ## Group indices (get_group_index, io_export_egm_blender_4.py lines 42-65;
io_export_egm.py lines 29-53) -/

/-- Vertex group weights are multiplied by this factor to get EGM group index
values. -/
def WEIGHT_FACTOR : ℤ := 1000

/-- get_group_index_from_group: scale the weight and round. -/
def get_group_index_from_group (w : ℚ) : ℤ := round (w * (WEIGHT_FACTOR : ℚ))

/-- Derived per-vertex index: scan the group entries of the vertex for the
named group (first match, as the break in the blender-4 loop) and scale-round
its weight; 0 when the vertex has no entry for the group. -/
def vertexGroupIndex (groups : List (ℕ × ℚ)) (g : ℕ) : ℤ :=
  match groups.find? (fun e => e.1 == g) with
  | some e => get_group_index_from_group e.2
  | none => 0

/-- Tail of the get_group_index loop (blender-4, lines 62-64): return 0 as soon
as one vertex derives an index different from the first one. -/
def ggiRest (g : ℕ) (index : ℤ) : List (List (ℕ × ℚ)) → ℤ
  | [] => index
  | v :: vs => if vertexGroupIndex v g ≠ index then 0 else ggiRest g index vs

/-- get_group_index (blender-4, lines 48-65): the common derived index of all
polygon vertices, or 0 when the first vertex derives 0 or any vertex differs. -/
def get_group_index (verts : List (List (ℕ × ℚ))) (g : ℕ) : ℤ :=
  match verts with
  | [] => 0
  | v :: vs =>
    let i0 := vertexGroupIndex v g
    if i0 = 0 then 0 else ggiRest g i0 vs

/-! ## Polygon canonicalization (add_polygon, io_export_egm_blender_4.py
lines 159-198) -/

/-- index_map of add_polygon: the rotation of corner positions starting at
position index, i.e. [index, .., vcount-1] ++ [0, .., index-1]. -/
def index_map (vcount index : ℕ) : List ℕ :=
  ((List.range (vcount - index)).map (fun i => index + i)) ++ List.range index

/-- Position of the start corner: vertices.index(min(vertices)). -/
def startPos (vertices : List ℤ) : ℕ := idxOfZ (listMinZ vertices) vertices

/-- The vertex-index block of a pdata row in add_polygon: vertex count, start
vertex index, and the vcount-1 offsets of the remaining rotated corners
relative to the start. -/
def pdataIndices (vertices : List ℤ) : List ℤ :=
  (vertices.length : ℤ) :: vertices.getD (startPos vertices) 0 ::
    (List.range (vertices.length - 1)).map
      (fun i => vertices.getD ((index_map vertices.length (startPos vertices)).getD (i + 1) 0) 0 -
        vertices.getD (startPos vertices) 0)

/-- The texture-coordinate block of add_polygon: per rotated corner the stored
(u, 1 - v) pair, permuted by index_map. -/
def rotatedUv (uv : List (ℚ × ℚ)) (vcount index : ℕ) : List (ℚ × ℚ) :=
  (List.range vcount).map (fun i =>
    ((uv.getD ((index_map vcount index).getD i 0) (0, 0)).1,
     1 - (uv.getD ((index_map vcount index).getD i 0) (0, 0)).2))

/-- The split-normal block of add_polygon, permuted by the same index_map. -/
def rotatedNormals (normals : List (ℚ × ℚ × ℚ)) (vcount index : ℕ) :
    List (ℚ × ℚ × ℚ) :=
  (List.range vcount).map (fun i =>
    normals.getD ((index_map vcount index).getD i 0) (0, 0, 0))

/-! ## Polygon deduplication (polygons_match and the merge loop of add_polygon,
io_export_egm_blender_4.py lines 143-145 and 209-214) -/

/-- polygons_match: two pdata rows carry the same information except for their
trailing LOD range (the last two entries). -/
def polygons_match (p1 p2 : List ℚ) : Bool :=
  p1.length == p2.length &&
  (List.range (p1.length - 2)).all (fun i => p1.getD i 0 == p2.getD i 0)

/-- The range-widening assignments of the merge branch of add_polygon: the
next-to-last entry of the retained row takes the min, the last the max, against
the trailing LOD pair of the incoming row. -/
def mergeRange (p2 pdata : List ℚ) : List ℚ :=
  updAt (updAt p2 (p2.length - 2) (fun a => min a (pdata.getD (pdata.length - 2) 0)))
    (p2.length - 1) (fun a => max a (pdata.getD (pdata.length - 1) 0))

/-- The merge loop at the end of add_polygon: widen the first matching retained
row and discard the incoming one, otherwise append it at the end. -/
def add_polygon : List (List ℚ) → List ℚ → List (List ℚ)
  | [], pdata => [pdata]
  | p2 :: rest, pdata =>
    if polygons_match pdata p2 then mergeRange p2 pdata :: rest
    else p2 :: add_polygon rest pdata

/-- Folding add_polygon over a stream of resolved rows, starting from the empty
polygon_data list. -/
def processPolygons (ps : List (List ℚ)) : List (List ℚ) :=
  ps.foldl add_polygon []

/-! ## Stream classification (get_triangles object loop, io_export_egm.py
lines 139-143; io_export_egm_blender_4.py lines 218-240) -/

/-- A polygon as seen by the classification: its material slot index. -/
structure PolyM where
  material_index : ℕ
deriving Inhabited, DecidableEq

/-- A contributing object: get_color of its material slots (rgba), its
polygons, and its LOD range. -/
structure ObjM where
  slots : List (ℚ × ℚ × ℚ × ℚ)
  polys : List PolyM
  obMinLOD : ℤ
  obMaxLOD : ℤ
deriving Inhabited, DecidableEq

/-- The stream test: a polygon is kept for the stream selected by transparent
iff the alpha of the color of the FIRST object slot at the polygon material
index being below 1 equals transparent (obs[0].material_slots[t.material_index]
in both exporters). -/
def includePoly (obs : List ObjM) (p : PolyM) (transparent : Bool) : Bool :=
  decide ((((obs.headD default).slots.getD p.material_index (1, 1, 1, 1)).2.2.2) < 1)
    == transparent

/-- The double loop of get_triangles collecting the (object position, polygon)
pairs of one stream: objects whose LOD range misses the export range are
skipped, and each polygon is classified by includePoly. -/
def streamPolys (obs : List ObjM) (minLOD maxLOD : ℤ) (transparent : Bool) :
    List (ℕ × PolyM) :=
  (List.range obs.length).flatMap (fun k =>
    if (obs.getD k default).obMinLOD > maxLOD ∨
        (obs.getD k default).obMaxLOD < minLOD then []
    else (obs.getD k default).polys.filterMap (fun p =>
      if includePoly obs p transparent then some (k, p) else none))

/-- First demo object: one slot with alpha 0 (transparent by the test). -/
def demoO0 : ObjM := ⟨[(1, 1, 1, 0)], [⟨0⟩], 0, 4⟩

/-- Second demo object: its own slot has alpha 1, but classification uses the
first object anyway. -/
def demoO1 : ObjM := ⟨[(1, 1, 1, 1)], [⟨0⟩], 0, 4⟩

/-! ## Run-length encoding of polygon records (get_triangles output loop,
io_export_egm_blender_4.py lines 244-322) -/

/-- A resolved pdata row in structured form: the flat Python row
[vcount, start, deltas.., mat, uvs.., splitflag, normals.., tr, lu, minL, maxL]
with its blocks named. normals holds 3 values (shared) or 3*vcount (split). -/
structure PRec where
  vcount : ℕ
  start : ℤ
  deltas : List ℤ
  mat : ℤ
  uvs : List ℚ
  normals : List ℚ
  tr : ℤ
  lu : ℤ
  minL : ℤ
  maxL : ℤ
deriving Inhabited, DecidableEq

/-- Carried-forward encoder state of the output loop, as initialized at lines
245-252 (vcount 0, prev_mat -1, prev_normals [], prev_lu -1, prev_tr -1,
prevMinLOD -1, prevMaxLOD -1, uvs []). -/
structure EState where
  vcount : ℕ
  prev_mat : ℤ
  prev_normals : List ℚ
  prev_lu : ℤ
  prev_tr : ℤ
  prevMinLOD : ℤ
  prevMaxLOD : ℤ
  uvs : List ℚ
deriving Inhabited, DecidableEq

def initEState : EState :=
  { vcount := 0, prev_mat := -1, prev_normals := [], prev_lu := -1,
    prev_tr := -1, prevMinLOD := -1, prevMaxLOD := -1, uvs := [] }

/-- The vertex-count sentinel is written iff the count differs from the
carried one (line 257). -/
def vcEmitted (st : EState) (p : PRec) : Bool := p.vcount != st.vcount

/-- The material index is written iff it differs from the carried one
(line 266). -/
def matEmitted (st : EState) (p : PRec) : Bool := p.mat != st.prev_mat

/-- The uv block is written iff the carried uv values have the wrong length or
differ pairwise from the row values (lines 271-276). -/
def uvEmitted (st : EState) (p : PRec) : Bool :=
  st.uvs.length != 2 * p.vcount ||
  !((List.range p.vcount).all (fun i =>
      st.uvs.getD (2 * i) 0 == p.uvs.getD (2 * i) 0 &&
      st.uvs.getD (2 * i + 1) 0 == p.uvs.getD (2 * i + 1) 0))

/-- The LOD pair is written iff it differs from the carried one (line 281). -/
def lodEmitted (st : EState) (p : PRec) : Bool :=
  p.minL != st.prevMinLOD || p.maxL != st.prevMaxLOD

/-- The normal sub-array is written iff the normals block differs from the
carried one in length or any component (lines 296-300). -/
def normalsEmitted (st : EState) (p : PRec) : Bool := st.prev_normals != p.normals

/-- The group pair is written iff it differs from the carried one
(line 308). -/
def groupEmitted (st : EState) (p : PRec) : Bool :=
  !(p.tr == st.prev_tr && p.lu == st.prev_lu)

/-- Sub-array 1 of a polygon record: optional negative vertex-count sentinel,
the index block (start plus vcount-1 deltas), then material, uv block and LOD
pair, each written only when changed (lines 255-285). -/
def encodeSub1 (st : EState) (p : PRec) : List ℚ :=
  (if vcEmitted st p then [(-(p.vcount : ℚ))] else []) ++
  ((p.start : ℚ) :: p.deltas.map (fun d => (Int.cast d : ℚ))) ++
  (if matEmitted st p then [(p.mat : ℚ)] else []) ++
  (if uvEmitted st p then p.uvs else []) ++
  (if lodEmitted st p then [(p.minL : ℚ), (p.maxL : ℚ)] else [])

/-- A full encoded record: sub-array 1 plus an optional second sub-array
holding the changed normals, the changed group pair, or the changed normals
with the group pair appended at the end (the bracket dance of lines
287-319). -/
def encodeRecord (st : EState) (p : PRec) : List (List ℚ) :=
  if normalsEmitted st p then
    if groupEmitted st p then
      [encodeSub1 st p, p.normals ++ [(p.tr : ℚ), (p.lu : ℚ)]]
    else [encodeSub1 st p, p.normals]
  else
    if groupEmitted st p then [encodeSub1 st p, [(p.tr : ℚ), (p.lu : ℚ)]]
    else [encodeSub1 st p]

/-- The carried state after one record: each prev field is reassigned in the
branch that wrote it, and the group pair unconditionally (lines 317-318). -/
def nextEState (st : EState) (p : PRec) : EState :=
  { vcount := if vcEmitted st p then p.vcount else st.vcount,
    prev_mat := if matEmitted st p then p.mat else st.prev_mat,
    prev_normals := if normalsEmitted st p then p.normals else st.prev_normals,
    prev_lu := p.lu,
    prev_tr := p.tr,
    prevMinLOD := if lodEmitted st p then p.minL else st.prevMinLOD,
    prevMaxLOD := if lodEmitted st p then p.maxL else st.prevMaxLOD,
    uvs := if uvEmitted st p then p.uvs else st.uvs }

def encodeStream (st : EState) : List PRec → List (List (List ℚ))
  | [] => []
  | p :: ps => encodeRecord st p :: encodeStream (nextEState st p) ps

/-- write_egm: the polygons array is the opaque stream followed by the
transparent stream, each produced by its own get_triangles call, so each
starts from the initial carried state (lines 418-426). -/
def encodePolygonStreams (solidPs transpPs : List PRec) : List (List (List ℚ)) :=
  encodeStream initEState solidPs ++ encodeStream initEState transpPs

/-- Material emission of get_triangles in io_export_egm.py: prev_mat starts at
0 (line 114) and the index is written only when it differs (lines 177-179).
Returns one written-or-not flag per triangle. -/
def old_matEmits : ℤ → List ℤ → List Bool
  | _, [] => []
  | prev, m :: ms =>
    (m != prev) :: old_matEmits (if m != prev then m else prev) ms

def OLD_PREV_MAT_INIT : ℤ := 0

/-- A first triangle record: material 0, integer uv and normal values. -/
def demoTri : PRec :=
  { vcount := 3, start := 0, deltas := [1, 2], mat := 0,
    uvs := [0, 0, 1, 0, 0, 1], normals := [0, 0, 1], tr := 0, lu := 0,
    minL := 0, maxL := 4 }

/-- A record with split normals and a changed group pair (5, 7). -/
def demoSplit : PRec :=
  { vcount := 3, start := 0, deltas := [1, 2], mat := 0,
    uvs := [0, 0, 1, 0, 0, 1],
    normals := [1, 0, 0, 0, 1, 0, 0, 0, 1], tr := 5, lu := 7,
    minL := 0, maxL := 4 }

/-! ## Decoding (ImportEGM.execute, io_import_egm.py lines 154-202 first pass
and 219-259 second pass; both passes replay the identical carried rules over
the same records, so the carried fields of the two passes are threaded here as
one state record). -/

/-- Carried decoder state: prevPoints, prevMinLOD, prevMaxLOD and prevNormals
of the first pass; prevmat, prevUv, prev_tra, prev_lum of the second. -/
structure DState where
  prevPoints : ℤ
  prevMinLOD : ℤ
  prevMaxLOD : ℤ
  prevmat : ℤ
  prevUv : List (ℚ × ℚ)
  prev_tra : ℤ
  prev_lum : ℤ
  prevNormals : List (ℚ × ℚ × ℚ)
deriving Inhabited, DecidableEq

/-- The initial decoder state of each pass: prevPoints 3, the LOD range of the
model, prevmat 0, group pair (0, 0). -/
def initDState (minLOD maxLOD : ℤ) : DState :=
  { prevPoints := 3, prevMinLOD := minLOD, prevMaxLOD := maxLOD, prevmat := 0,
    prevUv := [], prev_tra := 0, prev_lum := 0, prevNormals := [] }

/-- The fields the importer resolves for one polygon record. -/
structure DOut where
  points : ℤ
  minL : ℤ
  maxL : ℤ
  mat : ℤ
  tra : ℤ
  lum : ℤ
deriving Inhabited, DecidableEq

/-- Integer read of a decoded cell (the format stores integers for counts,
indices and LOD bounds). -/
def qz (x : ℚ) : ℤ := ⌊x⌋

/-- points = -t[0][0] if the first element is negative, else the carried count
(lines 226-227). -/
def decodePoints (t0 : List ℚ) (prevPoints : ℤ) : ℤ :=
  if t0.getD 0 0 < 0 then -(qz (t0.getD 0 0)) else prevPoints

/-- The field-presence arithmetic of lines 229-232: has_mat from the parity of
the remaining length, has_uv when more than 2 values remain after the
material, has_lod when at least 2 remain after the uv block. -/
def decodeFlags (length offs points : ℤ) : ℤ × ℤ × ℤ :=
  ((length - offs - points) % 2,
   if length - offs - points - (length - offs - points) % 2 > 2
     then 2 * points else 0,
   if length - offs - points - (length - offs - points) % 2 -
       (if length - offs - points - (length - offs - points) % 2 > 2
         then 2 * points else 0) ≥ 2
     then 2 else 0)

/-- Group-pair extraction of lines 243-245: when a second sub-array exists
with length 2 mod 3, its last two entries are the transform and luminosity
indices; otherwise the carried pair stands. -/
def decodeGroupPairOf (t : List (List ℚ)) (prev : ℤ × ℤ) : ℤ × ℤ :=
  if t.length > 1 ∧ (t.getD 1 []).length % 3 = 2 then
    (qz ((t.getD 1 []).getD ((t.getD 1 []).length - 2) 0),
     qz ((t.getD 1 []).getD ((t.getD 1 []).length - 1) 0))
  else prev

/-- The normals carry of lines 193-202: when a second sub-array longer than 2
exists, it replaces the carried per-corner normals, read shared (first triple
repeated) when shorter than 3*points, else split. -/
def decodeNormals (t : List (List ℚ)) (points : ℤ)
    (prev : List (ℚ × ℚ × ℚ)) : List (ℚ × ℚ × ℚ) :=
  if t.length > 1 ∧ (t.getD 1 []).length > 2 then
    if ((t.getD 1 []).length : ℤ) < 3 * points then
      (List.range points.toNat).map (fun _ =>
        ((t.getD 1 []).getD 0 0, (t.getD 1 []).getD 1 0, (t.getD 1 []).getD 2 0))
    else
      (List.range points.toNat).map (fun i =>
        ((t.getD 1 []).getD (3 * i) 0, (t.getD 1 []).getD (3 * i + 1) 0,
         (t.getD 1 []).getD (3 * i + 2) 0))
  else prev

/-- One step of the importer polygon loop: presence arithmetic, then the
carried-state updates of both passes plus the resolved fields of the record. -/
def decodeRecord (st : DState) (t : List (List ℚ)) : DState × DOut :=
  let t0 := t.getD 0 []
  let offs : ℤ := if t0.getD 0 0 < 0 then 1 else 0
  let points := decodePoints t0 st.prevPoints
  let flags := decodeFlags (t0.length : ℤ) offs points
  let minL := if flags.2.2 ≠ 0
    then qz (t0.getD (t0.length - 2) 0) else st.prevMinLOD
  let maxL := if flags.2.2 ≠ 0
    then qz (t0.getD (t0.length - 1) 0) else st.prevMaxLOD
  let mat := if flags.1 ≠ 0
    then qz (t0.getD (offs + points).toNat 0) else st.prevmat
  let uv := if flags.2.1 ≠ 0 then
      (List.range points.toNat).map (fun ix =>
        (t0.getD ((offs + points + flags.1).toNat + 2 * ix) 0,
         1 - t0.getD ((offs + points + flags.1).toNat + 2 * ix + 1) 0))
    else st.prevUv
  let gp := decodeGroupPairOf t (st.prev_tra, st.prev_lum)
  let normals := decodeNormals t points st.prevNormals
  (⟨points, minL, maxL, mat, uv, gp.1, gp.2, normals⟩,
   ⟨points, minL, maxL, mat, gp.1, gp.2⟩)

/-- The importer runs ONE carried state over the whole polygons array (the
concatenation of the opaque and transparent streams). -/
def decodeStream (st : DState) : List (List (List ℚ)) → List DOut
  | [] => []
  | t :: ts => (decodeRecord st t).2 :: decodeStream (decodeRecord st t).1 ts

/-- The decoder state left after a list of records. -/
def decodeStateAfter (st : DState) : List (List (List ℚ)) → DState
  | [] => st
  | t :: ts => decodeStateAfter (decodeRecord st t).1 ts

/-- A solid-stream record: triangle with an explicit material index 1. -/
def rSolid : List (List (List ℚ)) := [[[0, 1, 2, 1]]]

/-- A transparent-stream first record omitting its material index (as the
io_export_egm.py encoder does when the first material index equals its initial
prev_mat of 0). -/
def rTransp : List (List (List ℚ)) := [[[0, 1, 2]]]

/-! ## Vertex deduplication (add_vertex in write_egm,
io_export_egm_blender_4.py lines 379-393) -/

/-- round3: round(x * 1000) / 1000. -/
def round3 (x : ℚ) : ℚ := ((round (x * 1000) : ℤ) : ℚ) / 1000

/-- An input vertex: raw position and the LOD range of the requesting
object. -/
structure VIn where
  x : ℚ
  y : ℚ
  z : ℚ
  minL : ℤ
  maxL : ℤ
deriving Inhabited, DecidableEq

/-- A vertex_data entry: rounded position cells and the merged LOD range. -/
structure VData where
  x : ℚ
  y : ℚ
  z : ℚ
  minL : ℤ
  maxL : ℤ
deriving Inhabited, DecidableEq

/-- The rounded position triple of an input vertex. -/
def rkey (v : VIn) : ℚ × ℚ × ℚ := (round3 v.x, round3 v.y, round3 v.z)

/-- The position triple stored in a vertex_data entry. -/
def vkey (d : VData) : ℚ × ℚ × ℚ := (d.x, d.y, d.z)

/-- The scan of add_vertex: position of the first vertex_data entry whose
three position cells equal the rounded input position (the for loop comparing
vd[0], vd[1], vd[2]). -/
def findPos (r : ℚ × ℚ × ℚ) : List VData → Option ℕ
  | [] => none
  | d :: ds => if vkey d = r then some 0 else (findPos r ds).map (· + 1)

/-- The range widening of a matched vertex_data entry: vd[3] takes the min of
mins, vd[4] the max of maxes. -/
def widen (v : VIn) (vd : VData) : VData :=
  { vd with minL := min vd.minL v.minL, maxL := max vd.maxL v.maxL }

/-- One add_vertex step on the (vertex_data, vertex_indices) pair: on a match
widen that entry LOD range and append the matching position; otherwise append
a fresh rounded entry and its position. -/
def add_vertex (st : List VData × List ℕ) (v : VIn) : List VData × List ℕ :=
  match findPos (round3 v.x, round3 v.y, round3 v.z) st.1 with
  | some i => (updAt st.1 i (widen v), st.2 ++ [i])
  | none =>
    (st.1 ++ [⟨round3 v.x, round3 v.y, round3 v.z, v.minL, v.maxL⟩],
     st.2 ++ [st.1.length])

/-- The write_egm vertex loop over all inputs, from the empty state. -/
def processVertices (vs : List VIn) : List VData × List ℕ :=
  vs.foldl add_vertex ([], [])

/-- Distinct values of a list in first-occurrence order. -/
def dedupFirst (l : List (ℚ × ℚ × ℚ)) : List (ℚ × ℚ × ℚ) :=
  l.foldl (fun acc p => if p ∈ acc then acc else acc ++ [p]) []

/-- First position of a value in a key list. -/
def idxOfK (r : ℚ × ℚ × ℚ) : List (ℚ × ℚ × ℚ) → ℕ
  | [] => 0
  | p :: ps => if p = r then 0 else idxOfK r ps + 1

/-- Minimum of an integer list, when nonempty. -/
def listMinO : List ℤ → Option ℤ
  | [] => none
  | a :: as => some (as.foldl min a)

/-- Maximum of an integer list, when nonempty. -/
def listMaxO : List ℤ → Option ℤ
  | [] => none
  | a :: as => some (as.foldl max a)

/-- Invariant of the add_vertex fold after processing the inputs done:
the index map has one entry per input; the stored keys are the distinct
rounded positions in first-occurrence order; each index-map entry is the key
position of its input rounded position; and each entry LOD range is the
min/max over all inputs mapped to it. -/
def VInv (done : List VIn) (st : List VData × List ℕ) : Prop :=
  st.2.length = done.length ∧
  st.1.map vkey = dedupFirst (done.map rkey) ∧
  (∀ i, i < done.length →
    st.2.getD i 0 = idxOfK (rkey (done.getD i default)) (st.1.map vkey)) ∧
  (∀ k, k < st.1.length →
    listMinO ((done.filter
        (fun v => rkey v = vkey (st.1.getD k default))).map VIn.minL) =
      some ((st.1.getD k default).minL) ∧
    listMaxO ((done.filter
        (fun v => rkey v = vkey (st.1.getD k default))).map VIn.maxL) =
      some ((st.1.getD k default).maxL))

/-- Two demo inputs with equal positions and different LOD ranges. -/
def demoVIns : List VIn := [⟨1, 2, 3, 0, 2⟩, ⟨1, 2, 3, 1, 5⟩]

/-- A triangle whose three vertices all carry weight 0.737 for group 0. -/
def demoTri737 : List (List (ℕ × ℚ)) :=
  [[(0, 737/1000)], [(0, 737/1000)], [(0, 737/1000)]]

/-- A triangle with weights 0.737, 0.5, 0.737 for group 0. -/
def demoTriMix : List (List (ℕ × ℚ)) :=
  [[(0, 737/1000)], [(0, 1/2)], [(0, 737/1000)]]

end EGM

namespace EGM

/-! ## Theorems -/

theorem vgi_737 : vertexGroupIndex [(0, (737:ℚ)/1000)] 0 = 737 := by
  norm_num [vertexGroupIndex, WEIGHT_FACTOR, get_group_index_from_group,
    List.find?, round_eq]

theorem vgi_half : vertexGroupIndex [(0, ((2:ℚ)⁻¹))] 0 = 500 := by
  norm_num [vertexGroupIndex, WEIGHT_FACTOR, get_group_index_from_group,
    List.find?, round_eq]

theorem ggi_737 : get_group_index demoTri737 0 = 737 := by
  simp [get_group_index, demoTri737, ggiRest, vgi_737]

theorem ggi_mix : get_group_index demoTriMix 0 = 0 := by
  simp [get_group_index, demoTriMix, ggiRest, vgi_737, vgi_half]

theorem ggiRest_all_eq (g : ℕ) (index : ℤ) (vs : List (List (ℕ × ℚ)))
    (h : ∀ w ∈ vs, vertexGroupIndex w g = index) : ggiRest g index vs = index := by
  induction vs with
  | nil => rfl
  | cons w ws ih =>
    simp only [ggiRest]
    rw [if_neg]
    · exact ih (fun x hx => h x (List.mem_cons_of_mem _ hx))
    · simpa using h w (List.mem_cons_self _ _)

theorem ggiRest_exists_ne (g : ℕ) (index : ℤ) (vs : List (List (ℕ × ℚ)))
    (h : ∃ w ∈ vs, vertexGroupIndex w g ≠ index) : ggiRest g index vs = 0 := by
  induction vs with
  | nil => simp at h
  | cons w ws ih =>
    simp only [ggiRest]
    by_cases hw : vertexGroupIndex w g ≠ index
    · rw [if_pos hw]
    · rw [if_neg hw]
      rcases h with ⟨x, hx, hne⟩
      rcases List.mem_cons.mp hx with rfl | hx
      · exact absurd hne hw
      · exact ih ⟨x, hx, hne⟩

/-- C6: the derived per-vertex index is round(weight × 1000) with 0 for a vertex
lacking an entry; the polygon group index equals the common derived value when
all vertices agree, and is 0 when the first vertex derives 0 or any vertex
derives a value different from the first. In particular weights
{0.737, 0.737, 0.737} yield 737 and {0.737, 0.5, 0.737} yield 0. -/
theorem c6_group_index_collapse (v : List (ℕ × ℚ)) (vs : List (List (ℕ × ℚ))) (g : ℕ) :
    ((∀ w ∈ v :: vs, vertexGroupIndex w g = vertexGroupIndex v g) →
      get_group_index (v :: vs) g = vertexGroupIndex v g) ∧
    (vertexGroupIndex v g = 0 → get_group_index (v :: vs) g = 0) ∧
    ((∃ w ∈ vs, vertexGroupIndex w g ≠ vertexGroupIndex v g) →
      get_group_index (v :: vs) g = 0) ∧
    get_group_index demoTri737 0 = 737 ∧
    get_group_index demoTriMix 0 = 0 := by
  refine ⟨?_, ?_, ?_, ggi_737, ggi_mix⟩
  · intro h
    simp only [get_group_index]
    by_cases h0 : vertexGroupIndex v g = 0
    · rw [if_pos h0, h0]
    · rw [if_neg h0]
      exact ggiRest_all_eq g _ vs (fun w hw => h w (List.mem_cons_of_mem _ hw))
  · intro h0
    simp only [get_group_index]
    rw [if_pos h0]
  · intro h
    simp only [get_group_index]
    by_cases h0 : vertexGroupIndex v g = 0
    · rw [if_pos h0]
    · rw [if_neg h0]
      exact ggiRest_exists_ne g _ vs h

/-- Witness for C6 at a concrete polygon: three vertices with equal weights
resolve to the common index 737. -/
theorem c6_group_index_collapse_witness :
    get_group_index demoTri737 0 = vertexGroupIndex [(0, 737/1000)] 0 :=
  (c6_group_index_collapse [(0, 737/1000)] [[(0, 737/1000)], [(0, 737/1000)]] 0).1
    (by intro w hw; fin_cases hw <;> rfl)

theorem foldl_min_le_init (a : ℤ) (as : List ℤ) : as.foldl min a ≤ a := by
  induction as generalizing a with
  | nil => exact le_refl a
  | cons b bs ih => exact le_trans (ih (min a b)) (min_le_left a b)

theorem foldl_min_le_mem (a x : ℤ) (as : List ℤ) (hx : x ∈ as) :
    as.foldl min a ≤ x := by
  induction as generalizing a with
  | nil => simp at hx
  | cons b bs ih =>
    rcases List.mem_cons.mp hx with rfl | hx
    · exact le_trans (foldl_min_le_init (min a x) bs) (min_le_right a x)
    · exact ih (min a b) hx

theorem listMinZ_le (l : List ℤ) (x : ℤ) (hx : x ∈ l) : listMinZ l ≤ x := by
  cases l with
  | nil => simp at hx
  | cons a as =>
    rcases List.mem_cons.mp hx with rfl | hx
    · exact foldl_min_le_init x as
    · exact foldl_min_le_mem a x as hx

theorem foldl_min_mem (a : ℤ) (as : List ℤ) : as.foldl min a ∈ a :: as := by
  induction as generalizing a with
  | nil => exact List.mem_singleton.mpr rfl
  | cons b bs ih =>
    have h := ih (min a b)
    rcases List.mem_cons.mp h with h | h
    · rw [show (b :: bs).foldl min a = bs.foldl min (min a b) from rfl, h]
      rcases min_choice a b with h2 | h2 <;> rw [h2]
      · exact List.mem_cons_self _ _
      · exact List.mem_cons_of_mem _ (List.mem_cons_self _ _)
    · exact List.mem_cons_of_mem _ (List.mem_cons_of_mem _ h)

theorem listMinZ_mem (l : List ℤ) (h : l ≠ []) : listMinZ l ∈ l := by
  cases l with
  | nil => exact absurd rfl h
  | cons a as => exact foldl_min_mem a as

theorem idxOfZ_spec (a : ℤ) (l : List ℤ) (h : a ∈ l) :
    idxOfZ a l < l.length ∧ l.getD (idxOfZ a l) 0 = a := by
  induction l with
  | nil => simp at h
  | cons b bs ih =>
    by_cases hb : b = a
    · refine ⟨by simp [idxOfZ, hb], by simp [idxOfZ, hb]⟩
    · have h' : a ∈ bs := by
        rcases List.mem_cons.mp h with rfl | h'
        · exact absurd rfl hb
        · exact h'
      obtain ⟨h1, h2⟩ := ih h'
      refine ⟨?_, ?_⟩
      · simp only [idxOfZ, if_neg hb, List.length_cons]
        omega
      · simpa [idxOfZ, if_neg hb] using h2

theorem getD_map_range {α : Type} (f : ℕ → α) (d : α) (n i : ℕ) (hi : i < n) :
    ((List.range n).map f).getD i d = f i := by
  rw [List.getD_eq_getElem?_getD, List.getElem?_map, List.getElem?_range hi]
  rfl

theorem index_map_length (vcount index : ℕ) (h : index ≤ vcount) :
    (index_map vcount index).length = vcount := by
  simp [index_map]
  omega

theorem index_map_getD (vcount index i : ℕ) (hidx : index < vcount)
    (hi : i < vcount) :
    (index_map vcount index).getD i 0 = (index + i) % vcount := by
  unfold index_map
  by_cases h : i < vcount - index
  · rw [List.getD_append _ _ _ _ (by simpa using h)]
    rw [getD_map_range _ _ _ _ h, Nat.mod_eq_of_lt (by omega)]
  · have hle : (List.map (fun j => index + j) (List.range (vcount - index))).length ≤ i := by
      simp only [List.length_map, List.length_range]
      omega
    rw [List.getD_append_right _ _ _ _ hle]
    simp only [List.length_map, List.length_range]
    rw [List.getD_eq_getElem?_getD, List.getElem?_range (by omega)]
    show i - (vcount - index) = (index + i) % vcount
    rw [Nat.mod_eq_sub_mod (by omega), Nat.mod_eq_of_lt (by omega)]
    omega

theorem pdata_getD_delta (vertices : List ℤ) (hne : vertices ≠ []) (i : ℕ)
    (hi : i < vertices.length - 1) :
    (pdataIndices vertices).getD (i + 2) 0 =
      vertices.getD ((startPos vertices + (i + 1)) % vertices.length) 0 -
        listMinZ vertices := by
  have hmem := listMinZ_mem vertices hne
  obtain ⟨hlt0, hval0⟩ := idxOfZ_spec _ _ hmem
  have hlt : startPos vertices < vertices.length := hlt0
  have hval : vertices.getD (startPos vertices) 0 = listMinZ vertices := hval0
  show ((List.range (vertices.length - 1)).map _).getD i 0 = _
  rw [getD_map_range _ _ _ _ hi, index_map_getD _ _ _ hlt (by omega), hval]

/-- C8: the canonicalizer starts the cycle at the position of its minimum
vertex index (start value = the minimum), emits the start index followed by
count-1 nonnegative deltas (delta = rotated index - start), rotates the corner
cycle by index_map (position i maps to (start position + i) mod count), and
permutes the uv and normal corner attributes by that same index_map. -/
theorem c8_canonicalizer (vertices : List ℤ) (uv : List (ℚ × ℚ))
    (normals : List (ℚ × ℚ × ℚ)) (hne : vertices ≠ []) :
    (startPos vertices < vertices.length ∧
      vertices.getD (startPos vertices) 0 = listMinZ vertices) ∧
    pdataIndices vertices = (vertices.length : ℤ) :: listMinZ vertices ::
      (List.range (vertices.length - 1)).map (fun i =>
        vertices.getD ((startPos vertices + (i + 1)) % vertices.length) 0 -
          listMinZ vertices) ∧
    (∀ i, i < vertices.length - 1 → 0 ≤ (pdataIndices vertices).getD (i + 2) 0) ∧
    (∀ i, i < vertices.length →
      (index_map vertices.length (startPos vertices)).getD i 0 =
        (startPos vertices + i) % vertices.length) ∧
    (∀ i, i < vertices.length →
      (rotatedUv uv vertices.length (startPos vertices)).getD i (0, 0) =
        ((uv.getD ((startPos vertices + i) % vertices.length) (0, 0)).1,
         1 - (uv.getD ((startPos vertices + i) % vertices.length) (0, 0)).2) ∧
      (rotatedNormals normals vertices.length (startPos vertices)).getD i
          (0, 0, 0) =
        normals.getD ((startPos vertices + i) % vertices.length) (0, 0, 0)) := by
  have hmem := listMinZ_mem vertices hne
  obtain ⟨hlt0, hval0⟩ := idxOfZ_spec _ _ hmem
  have hlt : startPos vertices < vertices.length := hlt0
  have hval : vertices.getD (startPos vertices) 0 = listMinZ vertices := hval0
  have hpos : 0 < vertices.length := List.length_pos.mpr hne
  refine ⟨⟨hlt, hval⟩, ?_, ?_, ?_, ?_⟩
  · simp only [pdataIndices, hval]
    refine congrArg _ (congrArg _ (List.map_congr_left ?_))
    intro i hi
    have hi' : i < vertices.length - 1 := List.mem_range.mp hi
    rw [index_map_getD _ _ _ hlt (by omega)]
  · intro i hi
    rw [pdata_getD_delta vertices hne i hi]
    have hm : (startPos vertices + (i + 1)) % vertices.length < vertices.length :=
      Nat.mod_lt _ hpos
    refine sub_nonneg.mpr (listMinZ_le _ _ ?_)
    rw [List.getD_eq_getElem _ _ hm]
    exact List.getElem_mem _
  · intro i hi
    exact index_map_getD _ _ _ hlt hi
  · intro i hi
    constructor
    · show ((List.range vertices.length).map _).getD i (0, 0) = _
      rw [getD_map_range _ _ _ _ hi, index_map_getD _ _ _ hlt hi]
    · show ((List.range vertices.length).map _).getD i (0, 0, 0) = _
      rw [getD_map_range _ _ _ _ hi, index_map_getD _ _ _ hlt hi]

/-- Witness for C8 at the concrete cycle [5, 2, 7]: the first delta of the
emitted index block is nonnegative. -/
theorem c8_canonicalizer_witness : 0 ≤ (pdataIndices [5, 2, 7]).getD (0 + 2) 0 :=
  (c8_canonicalizer [5, 2, 7] [] [] (by decide)).2.2.1 0 (by decide)

theorem updAt_length {α : Type} (l : List α) (n : ℕ) (f : α → α) :
    (updAt l n f).length = l.length := by
  induction l generalizing n with
  | nil => rfl
  | cons a as ih =>
    cases n with
    | zero => rfl
    | succ m => simp [updAt, ih]

theorem updAt_getD_ne {α : Type} (l : List α) (n m : ℕ) (f : α → α) (d : α)
    (h : m ≠ n) : (updAt l n f).getD m d = l.getD m d := by
  induction l generalizing n m with
  | nil => rfl
  | cons a as ih =>
    cases n with
    | zero =>
      cases m with
      | zero => exact absurd rfl h
      | succ k => rfl
    | succ n' =>
      cases m with
      | zero => rfl
      | succ k => exact ih n' k (fun hk => h (by omega))

theorem updAt_getD_eq {α : Type} (l : List α) (n : ℕ) (f : α → α) (d : α)
    (h : n < l.length) : (updAt l n f).getD n d = f (l.getD n d) := by
  induction l generalizing n with
  | nil => simp at h
  | cons a as ih =>
    cases n with
    | zero => rfl
    | succ n' => exact ih n' (by simpa using h)

theorem mergeRange_length (q p : List ℚ) : (mergeRange q p).length = q.length := by
  unfold mergeRange
  rw [updAt_length, updAt_length]

theorem mergeRange_getD_low (q p : List ℚ) (i : ℕ) (hi : i < q.length - 2) :
    (mergeRange q p).getD i 0 = q.getD i 0 := by
  unfold mergeRange
  rw [updAt_getD_ne _ _ _ _ _ (by omega), updAt_getD_ne _ _ _ _ _ (by omega)]

theorem polygons_match_symm (a b : List ℚ) :
    polygons_match a b = polygons_match b a := by
  by_cases h : a.length = b.length
  · rw [Bool.eq_iff_iff]
    simp only [polygons_match, h, Bool.and_eq_true, List.all_eq_true,
      List.mem_range, beq_iff_eq, beq_self_eq_true, true_and]
    constructor
    · intro hh i hi
      exact (hh i hi).symm
    · intro hh i hi
      exact (hh i hi).symm
  · rw [Bool.eq_iff_iff]
    simp only [polygons_match, Bool.and_eq_true, beq_iff_eq]
    constructor
    · rintro ⟨hh, -⟩
      exact absurd hh h
    · rintro ⟨hh, -⟩
      exact absurd hh.symm h

theorem polygons_match_mergeRange (a q p : List ℚ) :
    polygons_match a (mergeRange q p) = polygons_match a q := by
  by_cases h : a.length = q.length
  · rw [Bool.eq_iff_iff]
    simp only [polygons_match, mergeRange_length, Bool.and_eq_true,
      List.all_eq_true, List.mem_range, beq_iff_eq]
    have hD : ∀ i, i < a.length - 2 → (mergeRange q p).getD i 0 = q.getD i 0 :=
      fun i hi => mergeRange_getD_low q p i (by omega)
    constructor
    · rintro ⟨h1, h2⟩
      exact ⟨h1, fun i hi => (h2 i hi).trans (hD i hi)⟩
    · rintro ⟨h1, h2⟩
      exact ⟨h1, fun i hi => (h2 i hi).trans (hD i hi).symm⟩
  · rw [Bool.eq_iff_iff]
    simp only [polygons_match, mergeRange_length, Bool.and_eq_true, beq_iff_eq]
    constructor
    · rintro ⟨hh, -⟩
      exact absurd hh h
    · rintro ⟨hh, -⟩
      exact absurd hh h

theorem add_polygon_forall (rest : List (List ℚ)) (p q : List ℚ)
    (hq : ∀ b ∈ rest, polygons_match q b = false)
    (hp : polygons_match q p = false) :
    ∀ b ∈ add_polygon rest p, polygons_match q b = false := by
  induction rest with
  | nil =>
    intro b hb
    rcases List.mem_singleton.mp hb with rfl
    exact hp
  | cons r rs ih =>
    intro b hb
    by_cases hm : polygons_match p r
    · rw [show add_polygon (r :: rs) p = mergeRange r p :: rs from by
        simp [add_polygon, hm]] at hb
      rcases List.mem_cons.mp hb with rfl | hb
      · rw [polygons_match_mergeRange]
        exact hq r (List.mem_cons_self _ _)
      · exact hq b (List.mem_cons_of_mem _ hb)
    · rw [show add_polygon (r :: rs) p = r :: add_polygon rs p from by
        simp [add_polygon, hm]] at hb
      rcases List.mem_cons.mp hb with rfl | hb
      · exact hq b (List.mem_cons_self _ _)
      · exact ih (fun x hx => hq x (List.mem_cons_of_mem _ hx)) b hb

theorem add_polygon_pairwise (data : List (List ℚ)) (p : List ℚ)
    (h : List.Pairwise (fun a b => polygons_match a b = false) data) :
    List.Pairwise (fun a b => polygons_match a b = false) (add_polygon data p) := by
  induction data with
  | nil => simp [add_polygon]
  | cons q rest ih =>
    rw [List.pairwise_cons] at h
    obtain ⟨hq, hrest⟩ := h
    by_cases hm : polygons_match p q
    · rw [show add_polygon (q :: rest) p = mergeRange q p :: rest from by
        simp [add_polygon, hm]]
      rw [List.pairwise_cons]
      refine ⟨fun b hb => ?_, hrest⟩
      rw [polygons_match_symm, polygons_match_mergeRange, polygons_match_symm]
      exact hq b hb
    · rw [show add_polygon (q :: rest) p = q :: add_polygon rest p from by
        simp [add_polygon, hm]]
      rw [List.pairwise_cons]
      refine ⟨?_, ih hrest⟩
      refine add_polygon_forall rest p q hq ?_
      rw [polygons_match_symm]
      exact Bool.eq_false_iff.mpr hm

theorem foldl_add_polygon_pairwise (ps acc : List (List ℚ))
    (h : List.Pairwise (fun a b => polygons_match a b = false) acc) :
    List.Pairwise (fun a b => polygons_match a b = false)
      (ps.foldl add_polygon acc) := by
  induction ps generalizing acc with
  | nil => exact h
  | cons p ps ih => exact ih _ (add_polygon_pairwise acc p h)

theorem add_polygon_no_match (data : List (List ℚ)) (p : List ℚ)
    (h : ∀ q ∈ data, polygons_match p q = false) :
    add_polygon data p = data ++ [p] := by
  induction data with
  | nil => rfl
  | cons q rest ih =>
    have hq : polygons_match p q = false := h q (List.mem_cons_self _ _)
    simp only [add_polygon, hq]
    rw [if_neg (by simp)]
    rw [ih (fun x hx => h x (List.mem_cons_of_mem _ hx))]
    rfl

theorem add_polygon_match_first (pre post : List (List ℚ)) (q p : List ℚ)
    (hpre : ∀ r ∈ pre, polygons_match p r = false)
    (hq : polygons_match p q = true) :
    add_polygon (pre ++ q :: post) p = pre ++ mergeRange q p :: post := by
  induction pre with
  | nil => simp [add_polygon, hq]
  | cons r rs ih =>
    have hr : polygons_match p r = false := hpre r (List.mem_cons_self _ _)
    simp only [List.cons_append, add_polygon, hr]
    rw [if_neg (by simp)]
    exact congrArg (List.cons r) (ih (fun x hx => hpre x (List.mem_cons_of_mem _ hx)))

/-- C9: after the dedup fold, no two retained rows match (agree in every field
except the trailing LOD range); an incoming row matching no retained row is
appended at the end preserving order; an incoming row matching a retained row
(compared against all retained rows, not just the last) is discarded while the
first matching row has its range widened to the union (min of mins, max of
maxes), with all other fields unchanged. -/
theorem c9_polygon_dedup (ps data pre post : List (List ℚ)) (p q : List ℚ) :
    List.Pairwise (fun a b => polygons_match a b = false) (processPolygons ps) ∧
    ((∀ r ∈ data, polygons_match p r = false) → add_polygon data p = data ++ [p]) ∧
    ((∀ r ∈ pre, polygons_match p r = false) → polygons_match p q = true →
      2 ≤ q.length →
      add_polygon (pre ++ q :: post) p = pre ++ mergeRange q p :: post ∧
      (mergeRange q p).length = q.length ∧
      (mergeRange q p).getD (q.length - 2) 0 =
        min (q.getD (q.length - 2) 0) (p.getD (p.length - 2) 0) ∧
      (mergeRange q p).getD (q.length - 1) 0 =
        max (q.getD (q.length - 1) 0) (p.getD (p.length - 1) 0) ∧
      ∀ i, i < q.length - 2 → (mergeRange q p).getD i 0 = q.getD i 0) := by
  refine ⟨foldl_add_polygon_pairwise ps [] (by simp),
    add_polygon_no_match data p, ?_⟩
  intro hpre hq h2
  refine ⟨add_polygon_match_first pre post q p hpre hq, mergeRange_length q p,
    ?_, ?_, mergeRange_getD_low q p⟩
  · unfold mergeRange
    rw [updAt_getD_ne _ _ _ _ _ (by omega),
      updAt_getD_eq _ _ _ _ (by omega)]
  · unfold mergeRange
    rw [updAt_getD_eq _ _ _ _ (by rw [updAt_length]; omega),
      updAt_getD_ne _ _ _ _ _ (by omega)]

/-- Witness for C9 at concrete rows: [5,0,1,4] matches retained [5,0,2,3]
(equal except the LOD tail), so it is merged rather than appended. -/
theorem c9_polygon_dedup_witness :
    add_polygon [[(5:ℚ), 0, 2, 3]] [5, 0, 1, 4] =
      [mergeRange [(5:ℚ), 0, 2, 3] [5, 0, 1, 4]] := by
  have h := (c9_polygon_dedup [] [] [] [] [(5:ℚ), 0, 1, 4] [(5:ℚ), 0, 2, 3]).2.2
    (by simp) (by decide) (by decide)
  exact h.1

theorem flatMap_congr {α β : Type} (l : List α) (f g : α → List β)
    (h : ∀ a ∈ l, f a = g a) : l.flatMap f = l.flatMap g := by
  induction l with
  | nil => rfl
  | cons a as ih =>
    rw [List.flatMap_cons, List.flatMap_cons, h a (List.mem_cons_self _ _),
      ih (fun x hx => h x (List.mem_cons_of_mem _ hx))]

/-- C10: stream membership is decided by the alpha of the FIRST object slot
list at the polygon material index, for the polygons of every object; the slot
tables of the other objects are never consulted (replacing all of them leaves
the streams unchanged). -/
theorem c10_first_object_materials (o0 : ObjM) (rest : List ObjM)
    (minLOD maxLOD : ℤ) (transparent : Bool)
    (f : ObjM → List (ℚ × ℚ × ℚ × ℚ)) :
    (∀ p : PolyM, includePoly (o0 :: rest) p transparent =
      (decide ((o0.slots.getD p.material_index (1, 1, 1, 1)).2.2.2 < 1)
        == transparent)) ∧
    (∀ k p, (k, p) ∈ streamPolys (o0 :: rest) minLOD maxLOD transparent →
      (decide ((o0.slots.getD p.material_index (1, 1, 1, 1)).2.2.2 < 1)
        == transparent) = true) ∧
    streamPolys
        (o0 :: rest.map (fun o => ⟨f o, o.polys, o.obMinLOD, o.obMaxLOD⟩))
        minLOD maxLOD transparent =
      streamPolys (o0 :: rest) minLOD maxLOD transparent := by
  refine ⟨fun p => rfl, ?_, ?_⟩
  · intro k p hmem
    rw [streamPolys] at hmem
    rcases List.mem_flatMap.mp hmem with ⟨j, hj, hbody⟩
    by_cases hskip : ((o0 :: rest).getD j default).obMinLOD > maxLOD ∨
        ((o0 :: rest).getD j default).obMaxLOD < minLOD
    · rw [if_pos hskip] at hbody
      simp at hbody
    · rw [if_neg hskip] at hbody
      rcases List.mem_filterMap.mp hbody with ⟨p', hp', heq⟩
      by_cases hinc : includePoly (o0 :: rest) p' transparent = true
      · rw [if_pos hinc] at heq
        simp only [Option.some.injEq, Prod.mk.injEq] at heq
        obtain ⟨rfl, rfl⟩ := heq
        exact hinc
      · rw [if_neg hinc] at heq
        exact absurd heq (by simp)
  · rw [streamPolys, streamPolys]
    have hlen : (o0 :: rest.map (fun o =>
        (⟨f o, o.polys, o.obMinLOD, o.obMaxLOD⟩ : ObjM))).length =
        (o0 :: rest).length := by simp
    rw [hlen]
    refine flatMap_congr _ _ _ ?_
    intro k hk
    have hk' : k < (o0 :: rest).length := List.mem_range.mp hk
    cases k with
    | zero => rfl
    | succ j =>
      have hj : j < rest.length := by simpa using hk'
      have e1 : (o0 :: rest.map (fun o =>
          (⟨f o, o.polys, o.obMinLOD, o.obMaxLOD⟩ : ObjM))).getD (j + 1) default =
          (⟨f rest[j], rest[j].polys, rest[j].obMinLOD, rest[j].obMaxLOD⟩ : ObjM) := by
        rw [List.getD_cons_succ, List.getD_eq_getElem _ _ (by simpa using hj),
          List.getElem_map]
      have e2 : (o0 :: rest).getD (j + 1) default = rest[j] := by
        rw [List.getD_cons_succ, List.getD_eq_getElem _ _ hj]
      rw [e1, e2]
      rfl

/-- Witness for C10: the polygon of the second demo object is classified by
the alpha of the first demo object slot. -/
theorem c10_first_object_materials_witness :
    (decide ((demoO0.slots.getD (PolyM.mk 0).material_index (1, 1, 1, 1)).2.2.2 < 1)
      == true) = true :=
  (c10_first_object_materials demoO0 [demoO1] 0 4 true (fun _ => [])).2.1
    1 ⟨0⟩ (by decide)

theorem encodeSub1_head (st : EState) (p : PRec) :
    (encodeSub1 st p).getD 0 0 =
      if vcEmitted st p then -(p.vcount : ℚ) else (p.start : ℚ) := by
  unfold encodeSub1
  by_cases h : vcEmitted st p <;> simp [h]

theorem encodeSub1_head_neg (st : EState) (p : PRec) (h1 : 1 ≤ p.vcount)
    (hs : 0 ≤ p.start) :
    ((encodeSub1 st p).getD 0 0 < 0 ↔ vcEmitted st p = true) := by
  rw [encodeSub1_head]
  by_cases h : vcEmitted st p
  · rw [if_pos h]
    refine iff_of_true ?_ h
    rw [neg_lt_zero]
    exact_mod_cast h1
  · rw [if_neg h]
    refine iff_of_false (not_lt.mpr ?_) h
    exact_mod_cast hs

theorem encodeSub1_length (st : EState) (p : PRec)
    (hd : p.deltas.length = p.vcount - 1) (h1 : 1 ≤ p.vcount)
    (hu : p.uvs.length = 2 * p.vcount) :
    ((encodeSub1 st p).length : ℤ) =
      (if vcEmitted st p then (1:ℤ) else 0) + p.vcount +
      (if matEmitted st p then 1 else 0) +
      (if uvEmitted st p then 1 else 0) * (2 * (p.vcount : ℤ)) +
      (if lodEmitted st p then 1 else 0) * 2 := by
  unfold encodeSub1
  by_cases ha : vcEmitted st p <;> by_cases hb : matEmitted st p <;>
    by_cases hc : uvEmitted st p <;> by_cases he : lodEmitted st p <;>
    simp only [ha, hb, hc, he, Bool.false_eq_true, if_true, if_false, ite_true,
      ite_false, List.nil_append, List.append_nil, List.length_append,
      List.length_cons, List.length_map, List.length_nil, hd, hu] <;> omega

theorem decodeFlags_correct (n offs m u l : ℤ) (hn : 3 ≤ n)
    (hm : m = 0 ∨ m = 1) (hu : u = 0 ∨ u = 1) (hl : l = 0 ∨ l = 1) :
    decodeFlags (offs + n + m + u * (2 * n) + l * 2) offs n =
      (m, u * (2 * n), l * 2) := by
  rcases hm with rfl | rfl <;> rcases hu with rfl | rfl <;>
    rcases hl with rfl | rfl <;>
    (unfold decodeFlags
     split_ifs <;> simp only [Prod.mk.injEq] <;>
       refine ⟨by omega, by omega, by omega⟩)

/-- C5: for a well-formed record (vertex count at least 3, vcount-1 deltas, a
2*vcount uv block, nonnegative start index), the decoder presence arithmetic
applied to the encoded sub-array 1 recovers exactly the sentinel presence and
the set of optional fields the encoder wrote, for every combination of
present/absent material, uv block, and LOD pair. -/
theorem c5_field_presence (st : EState) (p : PRec) (h3 : 3 ≤ p.vcount)
    (hd : p.deltas.length = p.vcount - 1) (hu : p.uvs.length = 2 * p.vcount)
    (hs : 0 ≤ p.start) :
    ((encodeSub1 st p).getD 0 0 < 0 ↔ vcEmitted st p = true) ∧
    decodeFlags ((encodeSub1 st p).length : ℤ)
        (if (encodeSub1 st p).getD 0 0 < 0 then 1 else 0) (p.vcount : ℤ) =
      ((if matEmitted st p then 1 else 0),
       (if uvEmitted st p then 2 * (p.vcount : ℤ) else 0),
       (if lodEmitted st p then 2 else 0)) := by
  have hneg := encodeSub1_head_neg st p (by omega) hs
  refine ⟨hneg, ?_⟩
  have hoffs : (if (encodeSub1 st p).getD 0 0 < 0 then (1:ℤ) else 0) =
      (if vcEmitted st p then 1 else 0) := by
    by_cases h : vcEmitted st p
    · rw [if_pos (hneg.mpr h), if_pos h]
    · rw [if_neg (fun hc => h (hneg.mp hc)), if_neg h]
  rw [hoffs, encodeSub1_length st p hd (by omega) hu,
    decodeFlags_correct _ _ _ _ _ (by exact_mod_cast h3)
      (by by_cases h : matEmitted st p <;> simp [h])
      (by by_cases h : uvEmitted st p <;> simp [h])
      (by by_cases h : lodEmitted st p <;> simp [h])]
  by_cases h : uvEmitted st p <;> by_cases h' : lodEmitted st p <;>
    simp [h, h']

/-- Witness for C5 at a concrete first record and the initial state. -/
theorem c5_field_presence_witness :
    ((encodeSub1 initEState demoTri).getD 0 0 < 0 ↔
      vcEmitted initEState demoTri = true) ∧
    decodeFlags ((encodeSub1 initEState demoTri).length : ℤ)
        (if (encodeSub1 initEState demoTri).getD 0 0 < 0 then 1 else 0)
        (demoTri.vcount : ℤ) =
      ((if matEmitted initEState demoTri then 1 else 0),
       (if uvEmitted initEState demoTri then 2 * (demoTri.vcount : ℤ) else 0),
       (if lodEmitted initEState demoTri then 2 else 0)) :=
  c5_field_presence initEState demoTri (by decide) (by decide) (by decide)
    (by decide)

/-- C4 counterexample: from the initial encoder state (carried count 0, not
3), the very first record of a stream of triangles DOES carry the vertex-count
sentinel -3, contradicting the claim that the first triangle record of a
stream carries no sentinel. -/
theorem c4_sentinel_counterexample :
    vcEmitted initEState demoTri = true ∧
    (((encodeStream initEState [demoTri]).getD 0 []).getD 0 []).getD 0 0 = -3 := by
  refine ⟨by decide, by decide⟩

/-- C4 amended: the sentinel is emitted iff the record count differs from the
carried one, whose initial value on encode is 0 (hence a first triangle record
still carries -3), while the decoder starts from 3; after a record the carried
count equals the record count (so a changed count is emitted exactly once);
when the sentinel is present the decoder recovers the record count, and when
absent it keeps its carried count. -/
theorem c4_sentinel (st : EState) (p : PRec) (prev : ℤ) (h3 : 3 ≤ p.vcount)
    (hs : 0 ≤ p.start) :
    (vcEmitted st p = true ↔ p.vcount ≠ st.vcount) ∧
    initEState.vcount = 0 ∧
    (nextEState st p).vcount = p.vcount ∧
    (vcEmitted st p = true →
      (encodeSub1 st p).getD 0 0 = -(p.vcount : ℚ) ∧
      decodePoints (encodeSub1 st p) prev = p.vcount) ∧
    (vcEmitted st p = false →
      (encodeSub1 st p).getD 0 0 = (p.start : ℚ) ∧
      decodePoints (encodeSub1 st p) prev = prev) := by
  have hiff : vcEmitted st p = true ↔ p.vcount ≠ st.vcount := by
    simp [vcEmitted]
  refine ⟨hiff, rfl, ?_, ?_, ?_⟩
  · show (if vcEmitted st p then p.vcount else st.vcount) = p.vcount
    by_cases h : vcEmitted st p
    · rw [if_pos h]
    · rw [if_neg h]
      have : ¬p.vcount ≠ st.vcount := fun hne => h (hiff.mpr hne)
      omega
  · intro h
    have hhead : (encodeSub1 st p).getD 0 0 = -(p.vcount : ℚ) := by
      rw [encodeSub1_head, if_pos h]
    refine ⟨hhead, ?_⟩
    unfold decodePoints
    rw [hhead]
    have hneg : -((p.vcount : ℕ) : ℚ) < 0 := by
      rw [neg_lt_zero]
      exact_mod_cast Nat.pos_of_ne_zero (by omega)
    rw [if_pos hneg]
    have : -((p.vcount : ℕ) : ℚ) = (((-(p.vcount : ℤ)) : ℤ) : ℚ) := by
      push_cast
      ring
    rw [qz, this, Int.floor_intCast, neg_neg]
  · intro h
    have hhead : (encodeSub1 st p).getD 0 0 = (p.start : ℚ) := by
      rw [encodeSub1_head, if_neg (by simp [h])]
    refine ⟨hhead, ?_⟩
    unfold decodePoints
    rw [hhead, if_neg (not_lt.mpr (by exact_mod_cast hs))]

/-- Witness for C4 amended, at the initial state and a concrete triangle. -/
theorem c4_sentinel_witness :
    decodePoints (encodeSub1 initEState demoTri) 3 = 3 :=
  ((c4_sentinel initEState demoTri 3 (by decide) (by decide)).2.2.2.1
    (by decide)).2

/-- C3 counterexample: the io_export_egm.py encoder initializes its carried
material index to 0, a real material index, so the first triangle of a stream
with material index 0 does NOT carry its material index. -/
theorem c3_material_counterexample :
    old_matEmits OLD_PREV_MAT_INIT [0] = [false] := by decide

/-- C3 amended: the blender-4 exporter initializes the carried material index
to the sentinel -1, which equals no real (nonnegative) material index, so its
first record always carries the material; the older exporter initializes it to
0, so its first record carries the material index iff that index is not 0. -/
theorem c3_material_init (p : PRec) (m : ℤ) (ms : List ℤ) (hm : 0 ≤ p.mat) :
    matEmitted initEState p = true ∧
    initEState.prev_mat = -1 ∧
    (old_matEmits OLD_PREV_MAT_INIT (m :: ms)).headD false = (m != 0) := by
  refine ⟨?_, rfl, rfl⟩
  simp only [matEmitted, initEState, bne_iff_ne, ne_eq]
  omega

/-- Witness for C3 amended: a first record with material index 0 still has the
material written by the blender-4 exporter. -/
theorem c3_material_init_witness : matEmitted initEState demoTri = true :=
  (c3_material_init demoTri 0 [] (by decide)).1

/-- C1 counterexample: a record whose group pair changed and whose normals
also changed has only TWO sub-arrays; the group pair [5, 7] is appended to the
normals sub-array (length 11 = 9 normal components + 2 group indices), and the
decoder reads the pair from that mixed second sub-array. This contradicts a
distinct third two-element sub-array and the no-mixing claim. -/
theorem c1_group_pair_counterexample :
    groupEmitted initEState demoSplit = true ∧
    normalsEmitted initEState demoSplit = true ∧
    (encodeRecord initEState demoSplit).length = 2 ∧
    (encodeRecord initEState demoSplit).getD 1 [] =
      demoSplit.normals ++ [5, 7] ∧
    decodeGroupPairOf (encodeRecord initEState demoSplit) (-1, -1) = (5, 7) := by
  refine ⟨by decide, by decide, by decide, by decide, by decide⟩

theorem decodeGroupPair_append (s1 normals : List ℚ) (a b : ℤ) (prev : ℤ × ℤ)
    (h3 : normals.length % 3 = 0) :
    decodeGroupPairOf [s1, normals ++ [(a : ℚ), (b : ℚ)]] prev = (a, b) := by
  have e1 : ([s1, normals ++ [(a : ℚ), (b : ℚ)]] : List (List ℚ)).getD 1 [] =
      normals ++ [(a : ℚ), (b : ℚ)] := rfl
  unfold decodeGroupPairOf
  rw [e1]
  have hlen : (normals ++ [(a : ℚ), (b : ℚ)]).length = normals.length + 2 := by
    simp
  rw [hlen, if_pos ⟨by norm_num, by omega⟩]
  have e2 : (normals ++ [(a : ℚ), (b : ℚ)]).getD (normals.length + 2 - 2) 0 =
      (a : ℚ) := by
    have h : normals.length + 2 - 2 = normals.length := by omega
    rw [h, List.getD_append_right _ _ _ _ (le_refl _), Nat.sub_self]
    rfl
  have e3 : (normals ++ [(a : ℚ), (b : ℚ)]).getD (normals.length + 2 - 1) 0 =
      (b : ℚ) := by
    have h : normals.length + 2 - 1 = normals.length + 1 := by omega
    rw [h, List.getD_append_right _ _ _ _ (by omega)]
    have h' : normals.length + 1 - normals.length = 1 := by omega
    rw [h']
    rfl
  rw [e2, e3]
  show (⌊(a : ℚ)⌋, ⌊(b : ℚ)⌋) = (a, b)
  rw [Int.floor_intCast, Int.floor_intCast]

theorem decodeGroupPair_pairOnly (s1 : List ℚ) (a b : ℤ) (prev : ℤ × ℤ) :
    decodeGroupPairOf [s1, [(a : ℚ), (b : ℚ)]] prev = (a, b) := by
  unfold decodeGroupPairOf
  rw [if_pos ⟨by norm_num, by norm_num⟩]
  show (⌊(a : ℚ)⌋, ⌊(b : ℚ)⌋) = (a, b)
  rw [Int.floor_intCast, Int.floor_intCast]

theorem decodeGroupPair_normalsOnly (s1 normals : List ℚ) (prev : ℤ × ℤ)
    (h3 : normals.length % 3 = 0) :
    decodeGroupPairOf [s1, normals] prev = prev := by
  unfold decodeGroupPairOf
  rw [if_neg]
  rintro ⟨-, hmod⟩
  have : ([s1, normals] : List (List ℚ)).getD 1 [] = normals := rfl
  rw [this] at hmod
  omega

theorem decodeGroupPair_single (s1 : List ℚ) (prev : ℤ × ℤ) :
    decodeGroupPairOf [s1] prev = prev := by
  unfold decodeGroupPairOf
  rw [if_neg]
  rintro ⟨hlen, -⟩
  simp at hlen

/-- C1 amended: a record never has a third sub-array. When the group pair
changed AND the normals changed, the pair is appended as the final two
elements of the normals sub-array (mixing normal components and group indices
in sub-array 2); when only the pair changed, the pair forms its own
two-element second sub-array; and the decoder reads the pair from the second
sub-array tail whenever its length is 2 mod 3, recovering the encoded pair in
every case. -/
theorem c1_group_pair_encoding (st : EState) (p : PRec)
    (hn : p.normals.length = 3 ∨ p.normals.length = 3 * p.vcount)
    (h1 : 1 ≤ p.vcount) :
    (encodeRecord st p).length ≤ 2 ∧
    (normalsEmitted st p = true → groupEmitted st p = true →
      encodeRecord st p =
        [encodeSub1 st p, p.normals ++ [(p.tr : ℚ), (p.lu : ℚ)]]) ∧
    (normalsEmitted st p = false → groupEmitted st p = true →
      encodeRecord st p = [encodeSub1 st p, [(p.tr : ℚ), (p.lu : ℚ)]]) ∧
    decodeGroupPairOf (encodeRecord st p) (st.prev_tr, st.prev_lu) =
      (p.tr, p.lu) := by
  have h3 : p.normals.length % 3 = 0 := by
    rcases hn with h | h <;> simp [h, Nat.mul_mod_right]
  refine ⟨?_, ?_, ?_, ?_⟩
  · unfold encodeRecord
    split_ifs <;> simp
  · intro hb hg
    unfold encodeRecord
    rw [if_pos hb, if_pos hg]
  · intro hb hg
    unfold encodeRecord
    rw [if_neg (by simp [hb]), if_pos hg]
  · by_cases hb : normalsEmitted st p = true <;>
      by_cases hg : groupEmitted st p = true
    · have hrec : encodeRecord st p =
          [encodeSub1 st p, p.normals ++ [(p.tr : ℚ), (p.lu : ℚ)]] := by
        unfold encodeRecord
        rw [if_pos hb, if_pos hg]
      rw [hrec, decodeGroupPair_append _ _ _ _ _ h3]
    · have hrec : encodeRecord st p = [encodeSub1 st p, p.normals] := by
        unfold encodeRecord
        rw [if_pos hb, if_neg hg]
      have hgeq : p.tr = st.prev_tr ∧ p.lu = st.prev_lu := by
        simpa [groupEmitted] using hg
      rw [hrec, decodeGroupPair_normalsOnly _ _ _ h3, hgeq.1, hgeq.2]
    · have hrec : encodeRecord st p =
          [encodeSub1 st p, [(p.tr : ℚ), (p.lu : ℚ)]] := by
        unfold encodeRecord
        rw [if_neg (by simp [Bool.not_eq_true] at hb ⊢; exact hb), if_pos hg]
      rw [hrec, decodeGroupPair_pairOnly]
    · have hrec : encodeRecord st p = [encodeSub1 st p] := by
        unfold encodeRecord
        rw [if_neg (by simp [Bool.not_eq_true] at hb ⊢; exact hb), if_neg hg]
      have hgeq : p.tr = st.prev_tr ∧ p.lu = st.prev_lu := by
        simpa [groupEmitted] using hg
      rw [hrec, decodeGroupPair_single, hgeq.1, hgeq.2]

/-- Witness for C1 amended at the initial state and the concrete split-normal
record. -/
theorem c1_group_pair_encoding_witness :
    decodeGroupPairOf (encodeRecord initEState demoSplit)
      (initEState.prev_tr, initEState.prev_lu) = (demoSplit.tr, demoSplit.lu) :=
  (c1_group_pair_encoding initEState demoSplit (by decide) (by decide)).2.2.2

/-- C2 counterexample: decoding the concatenation of an opaque record carrying
material 1 and a transparent first record omitting its material resolves the
transparent record with material 1 (the state left by the opaque stream), not
with the initial default 0 that decoding the transparent stream alone
yields. -/
theorem c2_stream_counterexample :
    (decodeStream (initDState 0 4) (rSolid ++ rTransp)).getD 1 default ≠
      (decodeStream (initDState 0 4) rTransp).getD 0 default := by decide

/-- C2 amended: on encode the carried state is re-initialized independently
per stream (the polygons array is two independent encodeStream runs from the
initial state, so the transparent half never depends on the opaque records);
on decode, however, ONE carried state runs across the concatenated streams:
decoding a concatenation continues from the state left by the first part. -/
theorem c2_stream_state (solidPs transpPs : List PRec) (st : DState)
    (ts1 ts2 : List (List (List ℚ))) :
    encodePolygonStreams solidPs transpPs =
      encodeStream initEState solidPs ++ encodeStream initEState transpPs ∧
    decodeStream st (ts1 ++ ts2) =
      decodeStream st ts1 ++ decodeStream (decodeStateAfter st ts1) ts2 := by
  refine ⟨rfl, ?_⟩
  induction ts1 generalizing st with
  | nil => rfl
  | cons t ts ih =>
    show (decodeRecord st t).2 :: decodeStream (decodeRecord st t).1 (ts ++ ts2) = _
    rw [ih]
    rfl

theorem getD_mem {α : Type} (l : List α) (i : ℕ) (d : α) (h : i < l.length) :
    l.getD i d ∈ l := by
  rw [List.getD_eq_getElem _ _ h]
  exact List.getElem_mem _

theorem mem_dedupFirst_aux (l acc : List (ℚ × ℚ × ℚ)) (p : ℚ × ℚ × ℚ) :
    p ∈ l.foldl (fun acc q => if q ∈ acc then acc else acc ++ [q]) acc ↔
      p ∈ acc ∨ p ∈ l := by
  induction l generalizing acc with
  | nil => simp
  | cons q l ih =>
    show p ∈ l.foldl _ (if q ∈ acc then acc else acc ++ [q]) ↔ _
    rw [ih]
    by_cases hq : q ∈ acc
    · rw [if_pos hq]
      constructor
      · rintro (h | h)
        · exact Or.inl h
        · exact Or.inr (List.mem_cons_of_mem _ h)
      · rintro (h | h)
        · exact Or.inl h
        · rcases List.mem_cons.mp h with rfl | h
          · exact Or.inl hq
          · exact Or.inr h
    · rw [if_neg hq]
      simp only [List.mem_append, List.mem_singleton, List.mem_cons]
      tauto

theorem mem_dedupFirst (l : List (ℚ × ℚ × ℚ)) (p : ℚ × ℚ × ℚ) :
    p ∈ dedupFirst l ↔ p ∈ l := by
  rw [dedupFirst, mem_dedupFirst_aux]
  simp

theorem nodup_dedupFirst_aux (l acc : List (ℚ × ℚ × ℚ)) (h : acc.Nodup) :
    (l.foldl (fun acc q => if q ∈ acc then acc else acc ++ [q]) acc).Nodup := by
  induction l generalizing acc with
  | nil => exact h
  | cons q l ih =>
    show (l.foldl _ (if q ∈ acc then acc else acc ++ [q])).Nodup
    by_cases hq : q ∈ acc
    · rw [if_pos hq]
      exact ih acc h
    · rw [if_neg hq]
      refine ih _ (List.Nodup.append h (List.nodup_singleton q) ?_)
      simp only [List.disjoint_singleton]
      exact hq

theorem nodup_dedupFirst (l : List (ℚ × ℚ × ℚ)) : (dedupFirst l).Nodup :=
  nodup_dedupFirst_aux l [] List.nodup_nil

theorem dedupFirst_append (l : List (ℚ × ℚ × ℚ)) (r : ℚ × ℚ × ℚ) :
    dedupFirst (l ++ [r]) =
      if r ∈ dedupFirst l then dedupFirst l else dedupFirst l ++ [r] := by
  rw [dedupFirst, List.foldl_append]
  rfl

theorem idxOfK_lt (r : ℚ × ℚ × ℚ) (l : List (ℚ × ℚ × ℚ)) (h : r ∈ l) :
    idxOfK r l < l.length := by
  induction l with
  | nil => simp at h
  | cons p ps ih =>
    by_cases hp : p = r
    · simp [idxOfK, hp]
    · rcases List.mem_cons.mp h with rfl | h'
      · exact absurd rfl hp
      · simp only [idxOfK, if_neg hp, List.length_cons]
        exact Nat.succ_lt_succ (ih h')

theorem idxOfK_getD (r : ℚ × ℚ × ℚ) (l : List (ℚ × ℚ × ℚ)) (d : ℚ × ℚ × ℚ)
    (h : r ∈ l) : l.getD (idxOfK r l) d = r := by
  induction l with
  | nil => simp at h
  | cons p ps ih =>
    by_cases hp : p = r
    · simp [idxOfK, hp]
    · rcases List.mem_cons.mp h with rfl | h'
      · exact absurd rfl hp
      · simpa [idxOfK, if_neg hp] using ih h'

theorem idxOfK_append_of_mem (r : ℚ × ℚ × ℚ) (l l' : List (ℚ × ℚ × ℚ))
    (h : r ∈ l) : idxOfK r (l ++ l') = idxOfK r l := by
  induction l with
  | nil => simp at h
  | cons p ps ih =>
    by_cases hp : p = r
    · simp [idxOfK, hp]
    · rcases List.mem_cons.mp h with rfl | h'
      · exact absurd rfl hp
      · simp only [List.cons_append, idxOfK, if_neg hp]
        exact congrArg (· + 1) (ih h')

theorem idxOfK_append_self (r : ℚ × ℚ × ℚ) (l : List (ℚ × ℚ × ℚ))
    (h : r ∉ l) : idxOfK r (l ++ [r]) = l.length := by
  induction l with
  | nil => simp [idxOfK]
  | cons p ps ih =>
    have hp : p ≠ r := fun he => h (he ▸ List.mem_cons_self _ _)
    simp only [List.cons_append, idxOfK, if_neg hp, List.length_cons]
    exact congrArg (· + 1) (ih (fun he => h (List.mem_cons_of_mem _ he)))

theorem idxOfK_inj (r s : ℚ × ℚ × ℚ) (l : List (ℚ × ℚ × ℚ)) (hr : r ∈ l)
    (hs : s ∈ l) (h : idxOfK r l = idxOfK s l) : r = s := by
  induction l with
  | nil => simp at hr
  | cons p ps ih =>
    by_cases hpr : p = r <;> by_cases hps : p = s
    · exact hpr.symm.trans hps
    · rw [idxOfK, if_pos hpr, idxOfK, if_neg hps] at h
      exact absurd h.symm (Nat.succ_ne_zero _)
    · rw [idxOfK, if_neg hpr, idxOfK, if_pos hps] at h
      exact absurd h (Nat.succ_ne_zero _)
    · rw [idxOfK, if_neg hpr, idxOfK, if_neg hps] at h
      have hr' : r ∈ ps := by
        rcases List.mem_cons.mp hr with rfl | h'
        · exact absurd rfl hpr
        · exact h'
      have hs' : s ∈ ps := by
        rcases List.mem_cons.mp hs with rfl | h'
        · exact absurd rfl hps
        · exact h'
      exact ih hr' hs' (Nat.succ_injective h)

theorem findPos_none_iff (r : ℚ × ℚ × ℚ) (canon : List VData) :
    findPos r canon = none ↔ r ∉ canon.map vkey := by
  induction canon with
  | nil => simp [findPos]
  | cons d ds ih =>
    simp only [findPos, List.map_cons, List.mem_cons]
    by_cases hd : vkey d = r
    · rw [if_pos hd]
      exact iff_of_false (by simp) (fun hc => hc (Or.inl hd.symm))
    · rw [if_neg hd]
      have hmap : (findPos r ds).map (· + 1) = none ↔ findPos r ds = none := by
        cases findPos r ds <;> simp
      rw [hmap, ih]
      constructor
      · intro h hc
        rcases hc with hc | hc
        · exact hd hc.symm
        · exact h hc
      · intro h hc
        exact h (Or.inr hc)

theorem findPos_some (r : ℚ × ℚ × ℚ) (canon : List VData)
    (h : r ∈ canon.map vkey) :
    findPos r canon = some (idxOfK r (canon.map vkey)) := by
  induction canon with
  | nil => simp at h
  | cons d ds ih =>
    simp only [findPos, List.map_cons]
    by_cases hd : vkey d = r
    · rw [if_pos hd, idxOfK, if_pos hd]
    · rw [if_neg hd, idxOfK, if_neg hd]
      have h' : r ∈ ds.map vkey := by
        rcases List.mem_cons.mp h with hc | hc
        · exact absurd hc.symm hd
        · exact hc
      rw [ih h']
      rfl

theorem updAt_wide_map_vkey (canon : List VData) (i : ℕ) (v : VIn) :
    (updAt canon i (widen v)).map vkey = canon.map vkey := by
  induction canon generalizing i with
  | nil => rfl
  | cons d ds ih =>
    cases i with
    | zero => rfl
    | succ n =>
      show vkey d :: _ = vkey d :: _
      rw [ih n]

theorem listMinO_append (xs : List ℤ) (a : ℤ) :
    listMinO (xs ++ [a]) = some (match listMinO xs with
      | none => a
      | some m => min m a) := by
  cases xs with
  | nil => rfl
  | cons b bs =>
    show some ((bs ++ [a]).foldl min b) = _
    rw [List.foldl_append]
    rfl

theorem listMaxO_append (xs : List ℤ) (a : ℤ) :
    listMaxO (xs ++ [a]) = some (match listMaxO xs with
      | none => a
      | some m => max m a) := by
  cases xs with
  | nil => rfl
  | cons b bs =>
    show some ((bs ++ [a]).foldl max b) = _
    rw [List.foldl_append]
    rfl

theorem map_vkey_getD (canon : List VData) (i : ℕ) (hi : i < canon.length)
    (d : ℚ × ℚ × ℚ) :
    (canon.map vkey).getD i d = vkey (canon.getD i default) := by
  rw [List.getD_eq_getElem _ _ (by simpa using hi), List.getElem_map,
    List.getD_eq_getElem _ _ hi]

theorem nodup_getD_ne {α : Type} (l : List α) (hnd : l.Nodup) (i j : ℕ) (d : α)
    (hi : i < l.length) (hj : j < l.length) (hij : i ≠ j) :
    l.getD i d ≠ l.getD j d := by
  rw [List.getD_eq_getElem _ _ hi, List.getD_eq_getElem _ _ hj]
  intro he
  rw [List.Nodup.getElem_inj_iff hnd] at he
  exact hij he

theorem vinv_step (done : List VIn) (st : List VData × List ℕ) (v : VIn)
    (h : VInv done st) : VInv (done ++ [v]) (add_vertex st v) := by
  obtain ⟨hA, hB, hC, hD⟩ := h
  have hkeysnd : (st.1.map vkey).Nodup := by
    rw [hB]
    exact nodup_dedupFirst _
  have hdone_getD : ∀ i, i < done.length →
      (done ++ [v]).getD i default = done.getD i default := by
    intro i hi
    exact List.getD_append _ _ _ _ hi
  have hdone_last : (done ++ [v]).getD done.length default = v := by
    rw [List.getD_append_right _ _ _ _ (le_refl _), Nat.sub_self]
    rfl
  have hdone_mem : ∀ i, i < done.length →
      rkey (done.getD i default) ∈ st.1.map vkey := by
    intro i hi
    rw [hB, mem_dedupFirst]
    exact List.mem_map_of_mem rkey (getD_mem _ _ _ hi)
  rcases hfp : findPos (round3 v.x, round3 v.y, round3 v.z) st.1 with _ | i
  · -- no matching entry: a fresh entry and index are appended
    have hnot : rkey v ∉ st.1.map vkey := (findPos_none_iff _ _).mp hfp
    have hav : add_vertex st v =
        (st.1 ++ [⟨round3 v.x, round3 v.y, round3 v.z, v.minL, v.maxL⟩],
         st.2 ++ [st.1.length]) := by
      unfold add_vertex
      rw [hfp]
    rw [hav]
    have hkeys : (st.1 ++
        [(⟨round3 v.x, round3 v.y, round3 v.z, v.minL, v.maxL⟩ : VData)]).map
          vkey = st.1.map vkey ++ [rkey v] := by
      rw [List.map_append]
      rfl
    refine ⟨by simp [hA], ?_, ?_, ?_⟩
    · rw [hkeys, List.map_append,
        show List.map rkey [v] = [rkey v] from rfl, dedupFirst_append,
        if_neg (by rw [← hB]; exact hnot), ← hB]
    · intro i' hi'
      rw [hkeys]
      by_cases hlt : i' < done.length
      · rw [List.getD_append _ _ _ _ (by omega), hdone_getD i' hlt,
          idxOfK_append_of_mem _ _ _ (hdone_mem i' hlt)]
        exact hC i' hlt
      · have hieq : i' = done.length := by
          simp only [List.length_append, List.length_cons, List.length_nil] at hi'
          omega
        subst hieq
        rw [List.getD_append_right _ _ _ _ (by omega), hA, Nat.sub_self,
          hdone_last, idxOfK_append_self _ _ hnot]
        show st.1.length = (st.1.map vkey).length
        rw [List.length_map]
    · intro k hk
      simp only [List.length_append, List.length_cons, List.length_nil] at hk
      by_cases hlt : k < st.1.length
      · rw [List.getD_append _ _ _ _ hlt]
        have hne : ¬(rkey v = vkey (st.1.getD k default)) := by
          intro he
          refine hnot ?_
          rw [he]
          exact List.mem_map_of_mem vkey (getD_mem _ _ _ hlt)
        have hpredv : (decide (rkey v = vkey (st.1.getD k default))) = false :=
          decide_eq_false hne
        have hfil : (done ++ [v]).filter
            (fun w => rkey w = vkey (st.1.getD k default)) =
            done.filter (fun w => rkey w = vkey (st.1.getD k default)) := by
          rw [List.filter_append]
          rw [show List.filter
            (fun w => decide (rkey w = vkey (st.1.getD k default))) [v] = []
            from by simp only [List.filter_cons, List.filter_nil, hpredv,
              Bool.false_eq_true, if_false]]
          rw [List.append_nil]
        rw [hfil]
        exact hD k hlt
      · have hkeq : k = st.1.length := by omega
        subst hkeq
        rw [List.getD_append_right _ _ _ _ (le_refl _), Nat.sub_self]
        have hentry : ([(⟨round3 v.x, round3 v.y, round3 v.z, v.minL,
            v.maxL⟩ : VData)].getD 0 default) =
            ⟨round3 v.x, round3 v.y, round3 v.z, v.minL, v.maxL⟩ := rfl
        rw [hentry]
        have hvk : vkey (⟨round3 v.x, round3 v.y, round3 v.z, v.minL,
            v.maxL⟩ : VData) = rkey v := rfl
        rw [hvk]
        have hfild : done.filter (fun w => rkey w = rkey v) = [] := by
          rw [List.filter_eq_nil_iff]
          intro w hw
          simp only [decide_eq_true_eq]
          intro he
          refine hnot ?_
          rw [← he, hB, mem_dedupFirst]
          exact List.mem_map_of_mem rkey hw
        have hpredv : (decide (rkey v = rkey v)) = true := by simp
        have hfil : (done ++ [v]).filter (fun w => rkey w = rkey v) = [v] := by
          rw [List.filter_append, hfild, List.nil_append]
          simp
        rw [hfil]
        exact ⟨rfl, rfl⟩
  · -- a matching entry: its range is widened, its position appended
    have hmem : rkey v ∈ st.1.map vkey := by
      by_contra hcon
      have hn := (findPos_none_iff (round3 v.x, round3 v.y, round3 v.z)
        st.1).mpr hcon
      rw [hn] at hfp
      exact Option.noConfusion hfp
    have hieq : i = idxOfK (rkey v) (st.1.map vkey) := by
      have hs := findPos_some (round3 v.x, round3 v.y, round3 v.z) st.1 hmem
      rw [hfp] at hs
      exact Option.some.inj hs
    have hilt : i < st.1.length := by
      have hl := idxOfK_lt _ _ hmem
      rw [List.length_map] at hl
      omega
    have hkey_i : vkey (st.1.getD i default) = rkey v := by
      rw [← map_vkey_getD st.1 i hilt default, hieq]
      exact idxOfK_getD _ _ _ hmem
    have hav : add_vertex st v = (updAt st.1 i (widen v), st.2 ++ [i]) := by
      unfold add_vertex
      rw [hfp]
    rw [hav]
    refine ⟨by simp [hA], ?_, ?_, ?_⟩
    · rw [updAt_wide_map_vkey, hB, List.map_append,
        show List.map rkey [v] = [rkey v] from rfl, dedupFirst_append,
        if_pos (by rw [← hB]; exact hmem)]
    · intro i' hi'
      rw [updAt_wide_map_vkey]
      by_cases hlt : i' < done.length
      · rw [List.getD_append _ _ _ _ (by omega), hdone_getD i' hlt]
        exact hC i' hlt
      · have hieq' : i' = done.length := by
          simp only [List.length_append, List.length_cons, List.length_nil] at hi'
          omega
        subst hieq'
        rw [List.getD_append_right _ _ _ _ (by omega), hA, Nat.sub_self,
          hdone_last]
        exact hieq
    · intro k hk
      rw [updAt_length] at hk
      by_cases hki : k = i
      · subst hki
        rw [updAt_getD_eq _ _ _ _ hk]
        have hvk : vkey (widen v (st.1.getD k default)) =
            vkey (st.1.getD k default) := rfl
        rw [hvk, hkey_i]
        have hpredv : (decide (rkey v = rkey v)) = true := by simp
        have hfil : (done ++ [v]).filter (fun w => rkey w = rkey v) =
            done.filter (fun w => rkey w = rkey v) ++ [v] := by
          rw [List.filter_append]
          rw [show List.filter (fun w => decide (rkey w = rkey v)) [v] = [v]
            from by simp]
        obtain ⟨hmin, hmax⟩ := hD k hk
        rw [hkey_i] at hmin hmax
        constructor
        · rw [hfil, List.map_append, show List.map VIn.minL [v] = [v.minL]
            from rfl, listMinO_append, hmin]
          rfl
        · rw [hfil, List.map_append, show List.map VIn.maxL [v] = [v.maxL]
            from rfl, listMaxO_append, hmax]
          rfl
      · rw [updAt_getD_ne _ _ _ _ _ hki]
        have hne : ¬(rkey v = vkey (st.1.getD k default)) := by
          intro he
          have h1 := nodup_getD_ne (st.1.map vkey) hkeysnd k i
            (vkey default) (by simpa using hk) (by simpa using hilt) hki
          rw [map_vkey_getD st.1 k hk (vkey default),
            map_vkey_getD st.1 i hilt (vkey default)] at h1
          exact h1 (he.symm.trans hkey_i.symm)
        have hpredv : (decide (rkey v = vkey (st.1.getD k default))) = false :=
          decide_eq_false hne
        have hfil : (done ++ [v]).filter
            (fun w => rkey w = vkey (st.1.getD k default)) =
            done.filter (fun w => rkey w = vkey (st.1.getD k default)) := by
          rw [List.filter_append]
          rw [show List.filter
            (fun w => decide (rkey w = vkey (st.1.getD k default))) [v] = []
            from by simp only [List.filter_cons, List.filter_nil, hpredv,
              Bool.false_eq_true, if_false]]
          rw [List.append_nil]
        rw [hfil]
        exact hD k hk

theorem vinv_fold (vs : List VIn) (done : List VIn) (st : List VData × List ℕ)
    (h : VInv done st) : VInv (done ++ vs) (vs.foldl add_vertex st) := by
  induction vs generalizing done st with
  | nil => simpa using h
  | cons v vs ih =>
    have h2 := ih (done ++ [v]) (add_vertex st v) (vinv_step done st v h)
    rw [List.append_assoc] at h2
    exact h2

theorem vinv_init : VInv [] ([], []) := by
  refine ⟨rfl, rfl, ?_, ?_⟩ <;> intro i hi <;> simp at hi

theorem vinv_process (vs : List VIn) : VInv vs (processVertices vs) :=
  vinv_fold vs [] ([], []) vinv_init

/-- C7: the vertex deduplicator maps two inputs to the same canonical index
iff their rounded positions are exactly equal (no tolerance); the canonical
entries are the distinct rounded positions in first-occurrence order; the
index map has one entry per input, each a valid position whose canonical entry
carries that input rounded position; and every canonical entry LOD range is
the union (min of mins, max of maxes) of the ranges of all inputs mapped to
it. -/
theorem c7_vertex_dedup (vs : List VIn) :
    (processVertices vs).2.length = vs.length ∧
    (∀ i j, i < vs.length → j < vs.length →
      ((processVertices vs).2.getD i 0 = (processVertices vs).2.getD j 0 ↔
        rkey (vs.getD i default) = rkey (vs.getD j default))) ∧
    (processVertices vs).1.map vkey = dedupFirst (vs.map rkey) ∧
    (∀ i, i < vs.length →
      (processVertices vs).2.getD i 0 < (processVertices vs).1.length ∧
      vkey ((processVertices vs).1.getD ((processVertices vs).2.getD i 0)
        default) = rkey (vs.getD i default)) ∧
    (∀ k, k < (processVertices vs).1.length →
      listMinO ((vs.filter (fun v => rkey v =
          vkey ((processVertices vs).1.getD k default))).map VIn.minL) =
        some (((processVertices vs).1.getD k default).minL) ∧
      listMaxO ((vs.filter (fun v => rkey v =
          vkey ((processVertices vs).1.getD k default))).map VIn.maxL) =
        some (((processVertices vs).1.getD k default).maxL)) := by
  obtain ⟨hA, hB, hC, hD⟩ := vinv_process vs
  have hmemkeys : ∀ i, i < vs.length →
      rkey (vs.getD i default) ∈ (processVertices vs).1.map vkey := by
    intro i hi
    rw [hB, mem_dedupFirst]
    exact List.mem_map_of_mem rkey (getD_mem _ _ _ hi)
  refine ⟨hA, ?_, hB, ?_, hD⟩
  · intro i j hi hj
    rw [hC i hi, hC j hj]
    constructor
    · intro h
      exact idxOfK_inj _ _ _ (hmemkeys i hi) (hmemkeys j hj) h
    · intro h
      rw [h]
  · intro i hi
    rw [hC i hi]
    have hlt : idxOfK (rkey (vs.getD i default))
        ((processVertices vs).1.map vkey) < (processVertices vs).1.length := by
      have hl := idxOfK_lt _ _ (hmemkeys i hi)
      rwa [List.length_map] at hl
    refine ⟨hlt, ?_⟩
    rw [← map_vkey_getD _ _ hlt default]
    exact idxOfK_getD _ _ _ (hmemkeys i hi)

/-- Witness for C7: two inputs with identical positions and different LOD
ranges map to the same canonical index. -/
theorem c7_vertex_dedup_witness :
    (processVertices demoVIns).2.getD 0 0 =
      (processVertices demoVIns).2.getD 1 0 :=
  ((c7_vertex_dedup demoVIns).2.1 0 1 (by decide) (by decide)).mpr rfl

end EGM
